import Mathlib

/-!
Verification of `bubble_sort.py` (riya-pesu/unit4-ai-assignment).

The Python source is shallowly embedded here:
* the working array is a `List α`;
* Python's `>` comparison, which may raise `TypeError` on incomparable
  values, is a parameter `gt : α → α → Option Bool` (`none` models the
  comparison raising);
* the inner `for j in range(0, n-i-1)` loop is `bubblePass`, fueled by the
  number of comparisons `n-i-1` it performs;
* the outer `for i in range(n)` loop with the `swapped` early-exit is
  `bubbleLoop`, fueled by the number of remaining iterations;
* the `TypeError` raised on an incomparable adjacent pair is an
  `Except.error` carrying a `CmpError` (the positions and values put into
  the exception message) together with the working array at the moment of
  the raise (the state Python's mutated `arr` is left in);
* pass and comparison counters are carried as ghost results so that the
  complexity claims can be stated; they do not influence the computation;
* the entry point `bubble_sort` models the input object (`PyObj`) as a
  list, a non-list iterable, or a non-iterable scalar, and returns the
  final state of the caller's container next to the result, which encodes
  Python's in-place mutation versus `arr = list(sequence)` copying.
-/

/-- The diagnostic payload of the `TypeError` raised by
`bubble_sort.py` lines 91-97: `Cannot compare elements at positions {j}
and {j+1}: {arr[j]!r} vs {arr[j+1]!r}`. -/
structure CmpError (α : Type) where
  pos1 : Nat
  pos2 : Nat
  val1 : α
  val2 : α
deriving Repr, DecidableEq

/-- One inner pass of `bubble_sort.py` (lines 88-101): `j` is the current
index (used only for error reporting), the `Nat` fuel is the number of
comparisons still to perform (`n - i - 1` at the start of pass `i`).
Returns the new array, the `swapped` flag, and the number of comparisons
performed (ghost counter). On an incomparable pair it returns the error
diagnostics plus the working array as left at the raise. -/
def bubblePass {α : Type} (gt : α → α → Option Bool) (rev : Bool) :
    Nat → Nat → List α → Except (CmpError α × List α) (List α × Bool × Nat)
  | _, 0, l => .ok (l, false, 0)
  | j, fuel+1, x :: y :: rest =>
    match gt x y with
    | none => .error (⟨j, j+1, x, y⟩, x :: y :: rest)
    | some b =>
      if Bool.xor b rev then
        match bubblePass gt rev (j+1) fuel (x :: rest) with
        | .error (e, w) => .error (e, y :: w)
        | .ok (w, _, c) => .ok (y :: w, true, c+1)
      else
        match bubblePass gt rev (j+1) fuel (y :: rest) with
        | .error (e, w) => .error (e, x :: w)
        | .ok (w, s, c) => .ok (x :: w, s, c+1)
  | _, _+1, l => .ok (l, false, 0)

/-- The outer loop of `bubble_sort.py` (lines 87-105): the fuel is the
number of outer iterations left (`n` initially, so pass `i` runs with
inner fuel `n - i - 1`); stops early when a pass performs no swap.
Returns the array, the number of passes executed, and the total number of
comparisons (ghost counters). -/
def bubbleLoop {α : Type} (gt : α → α → Option Bool) (rev : Bool) :
    Nat → List α → Except (CmpError α × List α) (List α × Nat × Nat)
  | 0, l => .ok (l, 0, 0)
  | k+1, l =>
    match bubblePass gt rev 0 k l with
    | .error e => .error e
    | .ok (w, s, c) =>
      if s then
        match bubbleLoop gt rev k w with
        | .error e => .error e
        | .ok (r, p, c2) => .ok (r, p+1, c+c2)
      else
        .ok (w, 1, c)

/-- The sorting core of `bubble_sort.py` applied to the working array
`arr`: the `n < 2` fast path (lines 79-81) followed by the nested loops. -/
def bubbleSortList {α : Type} (gt : α → α → Option Bool) (rev : Bool)
    (l : List α) : Except (CmpError α × List α) (List α) :=
  if l.length < 2 then .ok l
  else
    match bubbleLoop gt rev l.length l with
    | .error e => .error e
    | .ok (r, _, _) => .ok r

/-- The caller-supplied `sequence` argument of `bubble_sort`: a Python
list, an iterable that is not a list (tuple, generator, ...), or a
non-iterable scalar (no `__iter__` attribute). -/
inductive PyObj (α : Type) where
  | list (xs : List α)
  | iterOnly (xs : List α)
  | scalar
deriving Repr, DecidableEq

/-- The three `TypeError` classes documented by `bubble_sort.py`:
not iterable (line 66), `in_place=True` on a non-list (line 72), and an
incomparable adjacent pair (lines 94-97). -/
inductive SortErr (α : Type) where
  | notIterable
  | invalidMode
  | incomparable (e : CmpError α)
deriving Repr, DecidableEq

/-- Entry point `bubble_sort(sequence, reverse, in_place)` (lines 31-107).
The first component is the returned value or the raised error; the second
is the state of the caller's container after the call (mutation is
observable only through it). In copy mode line 76 builds `arr =
list(sequence)`, so the caller's container is returned unchanged even
when the sort aborts mid-way. -/
def bubble_sort {α : Type} (gt : α → α → Option Bool) (rev inPlace : Bool)
    (obj : PyObj α) : Except (SortErr α) (List α) × PyObj α :=
  match obj with
  | .scalar => (.error .notIterable, .scalar)
  | .list xs =>
    if inPlace then
      match bubbleSortList gt rev xs with
      | .ok r => (.ok r, .list r)
      | .error (e, w) => (.error (.incomparable e), .list w)
    else
      match bubbleSortList gt rev xs with
      | .ok r => (.ok r, .list xs)
      | .error (e, _) => (.error (.incomparable e), .list xs)
  | .iterOnly xs =>
    if inPlace then
      (.error .invalidMode, .iterOnly xs)
    else
      match bubbleSortList gt rev xs with
      | .ok r => (.ok r, .iterOnly xs)
      | .error (e, _) => (.error (.incomparable e), .iterOnly xs)

/-- Python's `>` on a type with a genuine linear order (numbers, strings):
always succeeds, `arr[j] > arr[j+1]` decided by the order. -/
def pyGt {α : Type} [LinearOrder α] : α → α → Option Bool :=
  fun x y => some (decide (x > y))

/-- A heterogeneous value as produced by the CLI (`int` or `str`);
Python compares two ints or two strings but raises `TypeError` across the
two kinds. Used to exercise the incomparable-elements path, e.g.
`bubble_sort([1, "a"])`. -/
inductive MixVal where
  | i (n : Int)
  | s (st : String)
deriving Repr, DecidableEq

/-- Python `>` on `MixVal`: defined within a kind, a fault across kinds. -/
def mixGt : MixVal → MixVal → Option Bool
  | .i a, .i b => some (decide (b < a))
  | .s a, .s b => some (decide (b < a))
  | _, _ => none

example : bubbleSortList (pyGt (α := Nat)) false [3, 1, 2] = .ok [1, 2, 3] := by rfl
example : bubbleSortList (pyGt (α := Nat)) true [1, 2, 3] = .ok [3, 2, 1] := by rfl
example : bubbleSortList mixGt false [.i 1, .s "a"] =
    .error (⟨0, 1, .i 1, .s "a"⟩, [.i 1, .s "a"]) := by rfl
example : bubbleLoop (pyGt (α := Nat)) true 3 [2, 1, 1] = .ok ([2, 1, 1], 2, 3) := by rfl

/-! ### Pure mirror of the fueled loops

With a total comparison, `bubblePass`/`bubbleLoop` never error; `passP` and
`loopP` are the same computations with the `Except` layer removed, which is
more convenient for induction. -/

/-- Pure mirror of `bubblePass` for a total comparison `c x y =
should-swap`. Returns (array, swapped, comparisons). -/
def passP {α : Type} (c : α → α → Bool) : Nat → List α → List α × Bool × Nat
  | 0, l => (l, false, 0)
  | f+1, x :: y :: rest =>
    if c x y then
      (y :: (passP c f (x :: rest)).1, true, (passP c f (x :: rest)).2.2 + 1)
    else
      (x :: (passP c f (y :: rest)).1, (passP c f (y :: rest)).2.1,
        (passP c f (y :: rest)).2.2 + 1)
  | _+1, l => (l, false, 0)

/-- Pure mirror of `bubbleLoop`. Returns (array, passes, comparisons). -/
def loopP {α : Type} (c : α → α → Bool) : Nat → List α → List α × Nat × Nat
  | 0, l => (l, 0, 0)
  | k+1, l =>
    if (passP c k l).2.1 then
      ((loopP c k (passP c k l).1).1,
        (loopP c k (passP c k l).1).2.1 + 1,
        (passP c k l).2.2 + (loopP c k (passP c k l).1).2.2)
    else
      ((passP c k l).1, 1, (passP c k l).2.2)

theorem bubblePass_eq_passP {α : Type} (gt : α → α → Option Bool)
    (g : α → α → Bool) (rev : Bool) (hg : ∀ x y, gt x y = some (g x y)) :
    ∀ f j l, bubblePass gt rev j f l =
      .ok (passP (fun x y => Bool.xor (g x y) rev) f l) := by
  intro f
  induction f with
  | zero => intro j l; simp [bubblePass, passP]
  | succ f ih =>
    intro j l
    cases l with
    | nil => simp [bubblePass, passP]
    | cons x l' =>
      cases l' with
      | nil => simp [bubblePass, passP]
      | cons y rest =>
        simp only [bubblePass, passP, hg]
        by_cases h : Bool.xor (g x y) rev
        · simp [h, ih]
        · simp [h, ih]

theorem bubbleLoop_eq_loopP {α : Type} (gt : α → α → Option Bool)
    (g : α → α → Bool) (rev : Bool) (hg : ∀ x y, gt x y = some (g x y)) :
    ∀ k l, bubbleLoop gt rev k l =
      .ok (loopP (fun x y => Bool.xor (g x y) rev) k l) := by
  intro k
  induction k with
  | zero => intro l; simp [bubbleLoop, loopP]
  | succ k ih =>
    intro l
    simp only [bubbleLoop, loopP, bubblePass_eq_passP gt g rev hg]
    by_cases h : (passP (fun x y => Bool.xor (g x y) rev) k l).2.1
    · simp [h, ih]
    · simp [h]

theorem passP_perm {α : Type} (c : α → α → Bool) :
    ∀ f l, ((passP c f l).1).Perm l := by
  intro f
  induction f with
  | zero => intro l; simp [passP]
  | succ f ih =>
    intro l
    cases l with
    | nil => simp [passP]
    | cons x l' =>
      cases l' with
      | nil => simp [passP]
      | cons y rest =>
        simp only [passP]
        by_cases h : c x y
        · simp only [h, if_true]
          exact ((ih (x :: rest)).cons y).trans (List.Perm.swap x y rest)
        · simp only [h, if_false]
          exact (ih (y :: rest)).cons x

theorem passP_append {α : Type} (c : α → α → Bool) :
    ∀ f a b, f + 1 ≤ a.length →
      passP c f (a ++ b) =
        ((passP c f a).1 ++ b, (passP c f a).2.1, (passP c f a).2.2) := by
  intro f
  induction f with
  | zero => intro a b _; simp [passP]
  | succ f ih =>
    intro a b h
    cases a with
    | nil => simp at h
    | cons x a' =>
      cases a' with
      | nil => simp at h
      | cons y t =>
        have hlen : f + 1 ≤ t.length + 1 := by
          simp only [List.length_cons] at h; omega
        cases hxy : c x y with
        | true =>
          have e1 : passP c f (x :: (t ++ b)) =
              ((passP c f (x :: t)).1 ++ b, (passP c f (x :: t)).2.1,
                (passP c f (x :: t)).2.2) := ih (x :: t) b hlen
          simp [passP, hxy, e1]
        | false =>
          have e1 : passP c f (y :: (t ++ b)) =
              ((passP c f (y :: t)).1 ++ b, (passP c f (y :: t)).2.1,
                (passP c f (y :: t)).2.2) := ih (y :: t) b hlen
          simp [passP, hxy, e1]

/-- A full-window pass moves a maximal element (for the effective order
`le`) to the end of the scanned range. `c` is the swap decision; it is
compatible with `le` in the sense of the two hypotheses. -/
theorem passP_max {α : Type} (c : α → α → Bool) (le : α → α → Prop)
    (hc1 : ∀ x y, c x y = true → le y x)
    (hc2 : ∀ x y, c x y = false → le x y)
    (htr : ∀ x y z, le x y → le y z → le x z) :
    ∀ f a, a.length = f + 1 →
      ∃ q m, (passP c f a).1 = q ++ [m] ∧ ∀ x ∈ q, le x m := by
  intro f
  induction f with
  | zero =>
    intro a h
    obtain ⟨m, rfl⟩ := List.length_eq_one.mp h
    exact ⟨[], m, by simp [passP], by simp⟩
  | succ f ih =>
    intro a h
    cases a with
    | nil => simp at h
    | cons x a' =>
      cases a' with
      | nil => simp at h
      | cons y t =>
        have hlt : (x :: t).length = f + 1 := by
          simp only [List.length_cons] at h ⊢; omega
        have hlt' : (y :: t).length = f + 1 := by
          simp only [List.length_cons] at h ⊢; omega
        cases hxy : c x y with
        | true =>
          obtain ⟨q, m, hq, hm⟩ := ih (x :: t) hlt
          refine ⟨y :: q, m, by simp [passP, hxy, hq], ?_⟩
          intro z hz
          rcases List.mem_cons.mp hz with rfl | hzq
          · have hyx : le z x := hc1 x z hxy
            have hxmem : x ∈ q ++ [m] := by
              rw [← hq]
              exact (passP_perm c f (x :: t)).mem_iff.mpr (List.mem_cons_self x t)
            rcases List.mem_append.mp hxmem with hxq | hxm
            · exact htr z x m hyx (hm x hxq)
            · rw [List.mem_singleton.mp hxm] at hyx; exact hyx
          · exact hm z hzq
        | false =>
          obtain ⟨q, m, hq, hm⟩ := ih (y :: t) hlt'
          refine ⟨x :: q, m, by simp [passP, hxy, hq], ?_⟩
          intro z hz
          rcases List.mem_cons.mp hz with rfl | hzq
          · have hxy' : le z y := hc2 z y hxy
            have hymem : y ∈ q ++ [m] := by
              rw [← hq]
              exact (passP_perm c f (y :: t)).mem_iff.mpr (List.mem_cons_self y t)
            rcases List.mem_append.mp hymem with hyq | hym
            · exact htr z y m hxy' (hm y hyq)
            · rw [List.mem_singleton.mp hym] at hxy'; exact hxy'
          · exact hm z hzq

/-- A pass that reports `swapped = False` left the array unchanged, and
the scanned window (the first `f+1` elements) is pairwise in order. -/
theorem passP_noswap {α : Type} (c : α → α → Bool) (le : α → α → Prop)
    (hc2 : ∀ x y, c x y = false → le x y) :
    ∀ f l, (passP c f l).2.1 = false →
      (passP c f l).1 = l ∧ List.Chain' le (l.take (f+1)) := by
  intro f
  induction f with
  | zero =>
    intro l _
    refine ⟨by simp [passP], ?_⟩
    cases l with
    | nil => simp
    | cons x t => simp
  | succ f ih =>
    intro l hs
    cases l with
    | nil => exact ⟨by simp [passP], by simp⟩
    | cons x l' =>
      cases l' with
      | nil => exact ⟨by simp [passP], by simp⟩
      | cons y t =>
        cases hxy : c x y with
        | true => simp [passP, hxy] at hs
        | false =>
          have hs' : (passP c f (y :: t)).2.1 = false := by
            simpa [passP, hxy] using hs
          obtain ⟨heq, hch⟩ := ih (y :: t) hs'
          refine ⟨by simp [passP, hxy, heq], ?_⟩
          simp only [List.take_succ_cons] at hch ⊢
          refine List.chain'_cons'.mpr ⟨?_, hch⟩
          intro z hz
          simp only [List.head?_cons, Option.mem_def, Option.some.injEq] at hz
          rw [← hz]
          exact hc2 x y hxy

/-- Master invariant of the outer loop: if the trailing `b` is already a
sorted, dominating suffix and the remaining fuel equals the length of the
untreated prefix `a`, the loop returns a permutation of the array that is
pairwise ordered by `le`. -/
theorem loopP_sorts {α : Type} (c : α → α → Bool) (le : α → α → Prop)
    (hc1 : ∀ x y, c x y = true → le y x)
    (hc2 : ∀ x y, c x y = false → le x y)
    (htr : ∀ x y z, le x y → le y z → le x z) :
    ∀ k a b, a.length = k → List.Chain' le b →
      (∀ x ∈ a, ∀ y ∈ b, le x y) →
      List.Perm (loopP c k (a ++ b)).1 (a ++ b) ∧
        List.Chain' le (loopP c k (a ++ b)).1 := by
  intro k
  induction k with
  | zero =>
    intro a b ha hb _
    obtain rfl := List.length_eq_zero.mp ha
    exact ⟨List.Perm.refl b, hb⟩
  | succ k ih =>
    intro a b ha hb hdom
    have hfa : k + 1 ≤ a.length := by omega
    have hpass := passP_append c k a b hfa
    have hperm : List.Perm (passP c k a).1 a := passP_perm c k a
    cases hsw : (passP c k a).2.1 with
    | false =>
      obtain ⟨heq, hch⟩ := passP_noswap c le hc2 k a hsw
      have hcha : List.Chain' le a := by
        have : a.take (k+1) = a := by rw [← ha]; exact List.take_length a
        rwa [this] at hch
      have hres : (loopP c (k+1) (a ++ b)).1 = a ++ b := by
        simp [loopP, hpass, hsw, heq]
      constructor
      · rw [hres]
      · rw [hres]
        refine List.chain'_append.mpr ⟨hcha, hb, ?_⟩
        intro x hx y hy
        exact hdom x (List.mem_of_mem_getLast? hx) y (List.mem_of_mem_head? hy)
    | true =>
      obtain ⟨q, m, hq, hm⟩ := passP_max c le hc1 hc2 htr k a ha
      have hmem_a : ∀ z ∈ q ++ [m], z ∈ a := by
        intro z hz
        exact hperm.mem_iff.mp (hq ▸ hz)
      have hqlen : q.length = k := by
        have h1 : (passP c k a).1.length = a.length := hperm.length_eq
        rw [hq] at h1
        simp only [List.length_append, List.length_singleton, ha] at h1
        omega
      have hchainb : List.Chain' le (m :: b) := by
        refine List.chain'_cons'.mpr ⟨?_, hb⟩
        intro z hz
        exact hdom m (hmem_a m (by simp)) z (List.mem_of_mem_head? hz)
      have hdom' : ∀ x ∈ q, ∀ y ∈ m :: b, le x y := by
        intro x hx y hy
        rcases List.mem_cons.mp hy with rfl | hyb
        · exact hm x hx
        · exact hdom x (hmem_a x (List.mem_append_left [m] hx)) y hyb
      have hrw : (passP c k a).1 ++ b = q ++ (m :: b) := by
        rw [hq, List.append_assoc]; rfl
      have hres : (loopP c (k+1) (a ++ b)).1 = (loopP c k (q ++ (m :: b))).1 := by
        simp [loopP, hpass, hsw, hrw]
      obtain ⟨hp, hc⟩ := ih q (m :: b) hqlen hchainb hdom'
      refine ⟨?_, hres ▸ hc⟩
      rw [hres]
      refine hp.trans ?_
      rw [← hrw]
      exact hperm.append_right b

/-- The outer loop never runs more passes than its fuel (`range(n)`). -/
theorem loopP_passes_le {α : Type} (c : α → α → Bool) :
    ∀ k l, (loopP c k l).2.1 ≤ k := by
  intro k
  induction k with
  | zero => intro l; simp [loopP]
  | succ k ih =>
    intro l
    simp only [loopP]
    by_cases h : (passP c k l).2.1
    · simp only [h, if_true]
      exact Nat.succ_le_succ (ih (passP c k l).1)
    · simp [h]

/-- On an array whose adjacent pairs all decide "do not swap", a pass
leaves the array unchanged, reports no swap, and performs exactly
`min fuel (n-1)` comparisons. -/
theorem passP_noswap_count {α : Type} (c : α → α → Bool) :
    ∀ f l, List.Chain' (fun x y => c x y = false) l →
      passP c f l = (l, false, min f (l.length - 1)) := by
  intro f
  induction f with
  | zero => intro l _; simp [passP]
  | succ f ih =>
    intro l h
    cases l with
    | nil => simp [passP]
    | cons x l' =>
      cases l' with
      | nil => simp [passP]
      | cons y t =>
        obtain ⟨hxy, ht⟩ := List.chain'_cons.mp h
        simp [passP, hxy, ih (y :: t) ht, Nat.succ_min_succ]

/-- On such an array the whole loop stops after exactly one pass. -/
theorem loopP_one_pass {α : Type} (c : α → α → Bool) (k : Nat) (l : List α)
    (h : List.Chain' (fun x y => c x y = false) l) :
    loopP c (k+1) l = (l, 1, min k (l.length - 1)) := by
  simp [loopP, passP_noswap_count c k l h]

/-- On an array already pairwise ordered by `le`, every swap the pass
performs exchanges two equal elements (by antisymmetry), so the array
value is unchanged. -/
theorem passP_unchanged {α : Type} (c : α → α → Bool) (le : α → α → Prop)
    (hc1 : ∀ x y, c x y = true → le y x)
    (hanti : ∀ x y, le x y → le y x → x = y) :
    ∀ f l, List.Chain' le l → (passP c f l).1 = l := by
  intro f
  induction f with
  | zero => intro l _; simp [passP]
  | succ f ih =>
    intro l hch
    cases l with
    | nil => simp [passP]
    | cons x l' =>
      cases l' with
      | nil => simp [passP]
      | cons y t =>
        obtain ⟨hxy, ht⟩ := List.chain'_cons.mp hch
        cases hc : c x y with
        | false => simp [passP, hc, ih (y :: t) ht]
        | true =>
          have heq : x = y := hanti x y hxy (hc1 x y hc)
          subst heq
          simp [passP, hc, ih (x :: t) ht]

/-- Iterating passes on an already-ordered array never changes it. -/
theorem loopP_unchanged {α : Type} (c : α → α → Bool) (le : α → α → Prop)
    (hc1 : ∀ x y, c x y = true → le y x)
    (hanti : ∀ x y, le x y → le y x → x = y) :
    ∀ k l, List.Chain' le l → (loopP c k l).1 = l := by
  intro k
  induction k with
  | zero => intro l _; simp [loopP]
  | succ k ih =>
    intro l h
    simp only [loopP]
    by_cases hs : (passP c k l).2.1
    · simp only [hs, if_true]
      rw [passP_unchanged c le hc1 hanti k l h]
      exact ih l h
    · simp only [hs]
      simp only [if_false, Bool.false_eq_true]
      exact passP_unchanged c le hc1 hanti k l h

/-- A successful pass (even under a comparison that can fault) permutes the
array. -/
theorem bubblePass_ok_perm {α : Type} (gt : α → α → Option Bool) (rev : Bool) :
    ∀ f j l r s c2, bubblePass gt rev j f l = .ok (r, s, c2) →
      List.Perm r l := by
  intro f
  induction f with
  | zero =>
    intro j l r s c2 h
    simp only [bubblePass, Except.ok.injEq, Prod.mk.injEq] at h
    rw [← h.1]
  | succ f ih =>
    intro j l r s c2 h
    cases l with
    | nil =>
      simp only [bubblePass, Except.ok.injEq, Prod.mk.injEq] at h
      rw [← h.1]
    | cons x l' =>
      cases l' with
      | nil =>
        simp only [bubblePass, Except.ok.injEq, Prod.mk.injEq] at h
        rw [← h.1]
      | cons y t =>
        simp only [bubblePass] at h
        split at h
        · exact Except.noConfusion h
        · split at h
          · split at h
            · exact Except.noConfusion h
            · next w s0 c0 hrec =>
                simp only [Except.ok.injEq, Prod.mk.injEq] at h
                rw [← h.1]
                exact ((ih (j+1) (x :: t) w s0 c0 hrec).cons y).trans
                  (List.Perm.swap x y t)
          · split at h
            · exact Except.noConfusion h
            · next w s0 c0 hrec =>
                simp only [Except.ok.injEq, Prod.mk.injEq] at h
                rw [← h.1]
                exact (ih (j+1) (y :: t) w s0 c0 hrec).cons x

/-- When a pass aborts, the reported positions are adjacent (`j`/`j+1`),
the reported values are exactly the pair whose comparison faulted, the
returned working array is a permutation of the pass input (all completed
swaps kept, nothing else changed), and the offending pair sits at the
reported offset with the rest of the array beyond it untouched. -/
theorem bubblePass_error {α : Type} (gt : α → α → Option Bool) (rev : Bool) :
    ∀ f j l e w, bubblePass gt rev j f l = .error (e, w) →
      ∃ d, e.pos1 = j + d ∧ e.pos2 = e.pos1 + 1 ∧
        gt e.val1 e.val2 = none ∧ List.Perm w l ∧
        w.drop d = e.val1 :: e.val2 :: l.drop (d + 2) := by
  intro f
  induction f with
  | zero => intro j l e w h; simp [bubblePass] at h
  | succ f ih =>
    intro j l e w h
    cases l with
    | nil => simp [bubblePass] at h
    | cons x l' =>
      cases l' with
      | nil => simp [bubblePass] at h
      | cons y t =>
        simp only [bubblePass] at h
        split at h
        · next hgt =>
            simp only [Except.error.injEq, Prod.mk.injEq] at h
            obtain ⟨he, hw⟩ := h
            subst he
            subst hw
            exact ⟨0, rfl, rfl, hgt, List.Perm.refl _, rfl⟩
        · split at h
          · split at h
            · next e1 w1 hrec =>
                simp only [Except.error.injEq, Prod.mk.injEq] at h
                obtain ⟨he, hw⟩ := h
                subst he
                subst hw
                obtain ⟨d, hd1, hd2, hd3, hd4, hd5⟩ :=
                  ih (j+1) (x :: t) e1 w1 hrec
                refine ⟨d + 1, by omega, hd2, hd3, ?_, ?_⟩
                · exact (hd4.cons y).trans (List.Perm.swap x y t)
                · simp only [List.drop_succ_cons]
                  rw [hd5]
                  rfl
            · exact Except.noConfusion h
          · split at h
            · next e1 w1 hrec =>
                simp only [Except.error.injEq, Prod.mk.injEq] at h
                obtain ⟨he, hw⟩ := h
                subst he
                subst hw
                obtain ⟨d, hd1, hd2, hd3, hd4, hd5⟩ :=
                  ih (j+1) (y :: t) e1 w1 hrec
                refine ⟨d + 1, by omega, hd2, hd3, ?_, ?_⟩
                · exact hd4.cons x
                · simp only [List.drop_succ_cons]
                  rw [hd5]
                  rfl
            · exact Except.noConfusion h

/-- Error characterization lifted to the outer loop: the reported pair is
adjacent, its comparison faults, the returned working array is a
permutation of the loop input, and the offending values sit at the
reported positions of that array. -/
theorem bubbleLoop_error {α : Type} (gt : α → α → Option Bool) (rev : Bool) :
    ∀ k l e w, bubbleLoop gt rev k l = .error (e, w) →
      e.pos2 = e.pos1 + 1 ∧ gt e.val1 e.val2 = none ∧ List.Perm w l ∧
        ∃ t2, w.drop e.pos1 = e.val1 :: e.val2 :: t2 := by
  intro k
  induction k with
  | zero => intro l e w h; simp [bubbleLoop] at h
  | succ k ih =>
    intro l e w h
    simp only [bubbleLoop] at h
    split at h
    · next e0 hp =>
        simp only [Except.error.injEq] at h
        subst h
        obtain ⟨d, hd1, hd2, hd3, hd4, hd5⟩ :=
          bubblePass_error gt rev k 0 l e w hp
        have hde : d = e.pos1 := by omega
        subst hde
        exact ⟨hd2, hd3, hd4, l.drop (e.pos1 + 2), hd5⟩
    · next w0 s0 c0 hp =>
        split at h
        · split at h
          · next e0 hl =>
              simp only [Except.error.injEq] at h
              subst h
              obtain ⟨h1, h2, h3, t2, h4⟩ := ih w0 e w hl
              exact ⟨h1, h2,
                h3.trans (bubblePass_ok_perm gt rev k 0 l w0 s0 c0 hp),
                t2, h4⟩
          · exact Except.noConfusion h
        · exact Except.noConfusion h

/-- Error characterization at the `bubble_sort` core: when the sort
aborts with an incomparable pair, the diagnostics name two adjacent
positions of the returned working array holding exactly the two values
whose comparison faulted, and that working array is a permutation of the
input (earlier swaps kept, nothing lost). -/
theorem bubbleSortList_error {α : Type} (gt : α → α → Option Bool)
    (rev : Bool) (l : List α) (e : CmpError α) (w : List α)
    (h : bubbleSortList gt rev l = .error (e, w)) :
    e.pos2 = e.pos1 + 1 ∧ gt e.val1 e.val2 = none ∧ List.Perm w l ∧
      ∃ t2, w.drop e.pos1 = e.val1 :: e.val2 :: t2 := by
  simp only [bubbleSortList] at h
  split at h
  · exact Except.noConfusion h
  · split at h
    · next e0 hl =>
        simp only [Except.error.injEq] at h
        subst h
        exact bubbleLoop_error gt rev l.length l e w hl
    · exact Except.noConfusion h

/-- The ordering the output must satisfy: `left ≤ right` ascending,
`left ≥ right` when `reverse=True`. -/
def dirLe {α : Type} [LinearOrder α] (rev : Bool) (a b : α) : Prop :=
  if rev then b ≤ a else a ≤ b

theorem dirLe_of_swap {α : Type} [LinearOrder α] (rev : Bool) (x y : α)
    (h : Bool.xor (decide (x > y)) rev = true) : dirLe rev y x := by
  cases rev with
  | false =>
    simp only [Bool.xor_false, decide_eq_true_eq] at h
    exact le_of_lt h
  | true =>
    simp only [Bool.xor_true, Bool.not_eq_true', decide_eq_false_iff_not,
      not_lt] at h
    simpa [dirLe] using h

theorem dirLe_of_noswap {α : Type} [LinearOrder α] (rev : Bool) (x y : α)
    (h : Bool.xor (decide (x > y)) rev = false) : dirLe rev x y := by
  cases rev with
  | false =>
    simp only [Bool.xor_false, Bool.not_eq_true', decide_eq_false_iff_not,
      not_lt] at h
    simpa [dirLe] using h
  | true =>
    simp only [Bool.xor_true, Bool.not_eq_false', decide_eq_true_eq] at h
    simp only [dirLe, if_true]
    exact le_of_lt h

theorem dirLe_trans {α : Type} [LinearOrder α] (rev : Bool) (x y z : α)
    (h1 : dirLe rev x y) (h2 : dirLe rev y z) : dirLe rev x z := by
  cases rev with
  | false =>
    simp only [dirLe, if_false, Bool.false_eq_true] at h1 h2 ⊢
    exact le_trans h1 h2
  | true =>
    simp only [dirLe, if_true] at h1 h2 ⊢
    exact le_trans h2 h1

theorem dirLe_antisymm {α : Type} [LinearOrder α] (rev : Bool) (x y : α)
    (h1 : dirLe rev x y) (h2 : dirLe rev y x) : x = y := by
  cases rev with
  | false =>
    simp only [dirLe, if_false, Bool.false_eq_true] at h1 h2
    exact le_antisymm h1 h2
  | true =>
    simp only [dirLe, if_true] at h1 h2
    exact le_antisymm h2 h1

/-- The effective swap decision computed by line 92 of the source for an
order-comparable type: `(arr[j] > arr[j+1]) ^ reverse`. -/
def swapDec {α : Type} [LinearOrder α] (rev : Bool) (x y : α) : Bool :=
  Bool.xor (decide (x > y)) rev

theorem bubbleLoop_pyGt {α : Type} [LinearOrder α] (rev : Bool)
    (k : Nat) (l : List α) :
    bubbleLoop pyGt rev k l = .ok (loopP (swapDec rev) k l) :=
  bubbleLoop_eq_loopP pyGt (fun x y => decide (x > y)) rev
    (fun _ _ => rfl) k l

theorem bubblePass_pyGt {α : Type} [LinearOrder α] (rev : Bool)
    (f j : Nat) (l : List α) :
    bubblePass pyGt rev j f l = .ok (passP (swapDec rev) f l) :=
  bubblePass_eq_passP pyGt (fun x y => decide (x > y)) rev
    (fun _ _ => rfl) f j l

/-- Core correctness of the sort on comparable inputs: it always returns
normally with a permutation of the input that is adjacent-pairwise
ordered in the selected direction. -/
theorem bubbleSortList_pyGt_ok {α : Type} [LinearOrder α] (rev : Bool)
    (l : List α) :
    ∃ r, bubbleSortList pyGt rev l = .ok r ∧ List.Perm r l ∧
      List.Chain' (dirLe rev) r := by
  by_cases hl : l.length < 2
  · refine ⟨l, by simp [bubbleSortList, hl], List.Perm.refl l, ?_⟩
    match l, hl with
    | [], _ => exact List.chain'_nil
    | [x], _ => exact List.chain'_singleton x
  · have hM := loopP_sorts (swapDec rev) (dirLe rev)
      (fun x y h => dirLe_of_swap rev x y h)
      (fun x y h => dirLe_of_noswap rev x y h)
      (fun x y z h1 h2 => dirLe_trans rev x y z h1 h2)
      l.length l [] rfl List.chain'_nil
      (fun x _ y hy => absurd hy (List.not_mem_nil y))
    rw [List.append_nil] at hM
    refine ⟨(loopP (swapDec rev) l.length l).1, ?_, hM.1, hM.2⟩
    simp [bubbleSortList, hl, bubbleLoop_pyGt]

/-- An input already ordered in the selected direction comes back
unchanged (swaps, when they happen at all under `reverse=True`, exchange
equal elements only). -/
theorem bubbleSortList_sorted_fixed {α : Type} [LinearOrder α] (rev : Bool)
    (l : List α) (h : List.Chain' (dirLe rev) l) :
    bubbleSortList pyGt rev l = .ok l := by
  by_cases hl : l.length < 2
  · simp [bubbleSortList, hl]
  · have hu := loopP_unchanged (swapDec rev) (dirLe rev)
      (fun x y hc => dirLe_of_swap rev x y hc)
      (fun x y h1 h2 => dirLe_antisymm rev x y h1 h2)
      l.length l h
    simp [bubbleSortList, hl, bubbleLoop_pyGt, hu]

/-! ### The CLI token coercion `_parse_item` (lines 110-130)

`_parse_item` strips the token, tries `int(s)`, then `float(s)`, then
falls back to the stripped string. The two Python built-in parsers are
modelled over their ASCII literal grammars: `int(s)` accepts an optional
sign followed by digits with single underscores between digits; `float(s)`
accepts an optional sign followed by `inf`/`infinity`/`nan`
(case-insensitive) or a decimal literal with optional fraction and
exponent. The numeric value of an accepted float literal is not needed by
any claim, so an accepted float is represented by its literal text. -/

/-- Remainder of a digit group: digits, with single underscores allowed
between digits (Python 3 numeric-literal grouping). -/
def digitsTail : List Char → Bool
  | [] => true
  | ['_'] => false
  | '_' :: ch :: r => ch.isDigit && digitsTail r
  | ch :: r => ch.isDigit && digitsTail r

/-- Numeric value of a digit group, skipping underscores. -/
def digitsValAux (acc : Nat) : List Char → Nat
  | [] => acc
  | '_' :: r => digitsValAux acc r
  | ch :: r => digitsValAux (acc * 10 + (ch.toNat - 48)) r

/-- Modelled from Python's built-in `int(s)` on an already-stripped
string: optional sign, then a non-empty underscore-grouped digit run. -/
def pyIntParse : String → Option Int
  | s =>
    match s.toList with
    | '+' :: ch :: r =>
      if ch.isDigit && digitsTail r then some (Int.ofNat (digitsValAux 0 (ch :: r))) else none
    | '-' :: ch :: r =>
      if ch.isDigit && digitsTail r then some (-(Int.ofNat (digitsValAux 0 (ch :: r)))) else none
    | ch :: r =>
      if ch.isDigit && digitsTail r then some (Int.ofNat (digitsValAux 0 (ch :: r))) else none
    | [] => none

/-- Consume the rest of a digit group (used by the float grammar). -/
def digitsMore : List Char → List Char
  | '_' :: ch :: r => if ch.isDigit then digitsMore r else '_' :: ch :: r
  | ch :: r => if ch.isDigit then digitsMore r else ch :: r
  | [] => []

/-- Optional signed digit run (a float exponent body). -/
def signedDigits : List Char → Bool
  | '+' :: ch :: r => ch.isDigit && digitsTail r
  | '-' :: ch :: r => ch.isDigit && digitsTail r
  | ch :: r => ch.isDigit && digitsTail r
  | [] => false

/-- Empty, or an exponent `e`/`E` followed by signed digits. -/
def expOrEmpty : List Char → Bool
  | [] => true
  | 'e' :: r => signedDigits r
  | 'E' :: r => signedDigits r
  | _ => false

/-- What may follow the integer part of a float literal. -/
def afterIntPart : List Char → Bool
  | ['.'] => true
  | '.' :: ch :: r => if ch.isDigit then expOrEmpty (digitsMore r) else expOrEmpty (ch :: r)
  | r => expOrEmpty r

/-- An unsigned float literal body (decimal number form). -/
def floatNumber : List Char → Bool
  | '.' :: ch :: r => ch.isDigit && expOrEmpty (digitsMore r)
  | ['.'] => false
  | ch :: r => ch.isDigit && afterIntPart (digitsMore r)
  | [] => false

/-- Unsigned float body: `inf`, `infinity`, `nan` or a decimal number
(input already lower-cased). -/
def floatSigned (cs : List Char) : Bool :=
  if cs = ['i', 'n', 'f'] || cs = ['i', 'n', 'f', 'i', 'n', 'i', 't', 'y']
      || cs = ['n', 'a', 'n'] then
    true
  else
    floatNumber cs

/-- Modelled from Python's built-in `float(s)` on an already-stripped
string: does `float(s)` accept the literal? -/
def pyFloatAccepts (s : String) : Bool :=
  match s.toList.map Char.toLower with
  | '+' :: r => floatSigned r
  | '-' :: r => floatSigned r
  | r => floatSigned r

/-- Strip ASCII whitespace from both ends (Python `str.strip()`). -/
def pyStrip (s : String) : String :=
  String.mk
    ((((s.toList.dropWhile Char.isWhitespace).reverse).dropWhile
        Char.isWhitespace).reverse)

/-- The result of `_parse_item`: a Python `int`, `float` (kept as its
accepted literal text) or `str`. -/
inductive PyTok where
  | int (n : Int)
  | float (lit : String)
  | str (s : String)
deriving Repr, DecidableEq

/-- `_parse_item` (lines 110-130): strip, try `int`, try `float`, fall
back to the stripped string. Total by construction — every branch
returns a value. -/
def parse_item (token : String) : PyTok :=
  match pyIntParse (pyStrip token) with
  | some n => .int n
  | none =>
    if pyFloatAccepts (pyStrip token) then .float (pyStrip token)
    else .str (pyStrip token)

example : parse_item " 42 " = .int 42 := by rfl
example : parse_item "-3" = .int (-3) := by rfl
example : parse_item " 3.5e2" = .float "3.5e2" := by rfl
example : parse_item "inf" = .float "inf" := by rfl
example : parse_item "abc " = .str "abc" := by rfl
example : parse_item "1_000" = .int 1000 := by rfl
example : parse_item "1_" = .str "1_" := by rfl
example : parse_item "" = .str "" := by rfl

/-! ### Claim theorems -/

/-- Claim C1: for every finite sequence of pairwise-comparable items (a
type with a linear order) and every value of the reverse flag, the sort
returns normally with a permutation of the input in which every adjacent
pair satisfies left ≤ right (reverse=False) or left ≥ right
(reverse=True). -/
theorem bubble_sort_sorts_and_permutes {α : Type} [LinearOrder α]
    (rev : Bool) (l : List α) :
    ∃ r, bubbleSortList pyGt rev l = .ok r ∧ List.Perm r l ∧
      List.Chain' (fun a b => if rev then b ≤ a else a ≤ b) r :=
  bubbleSortList_pyGt_ok rev l

/-- Python objects ordered by a key (first component); the second
component is an identity tag invisible to the comparison, making
stability observable. -/
def keyGt : Nat × Nat → Nat × Nat → Option Bool :=
  fun x y => some (decide (y.1 < x.1))

/-- Claim C2 is false on the code: with `reverse=True`, line 92 computes
`should_swap = (arr[j] > arr[j+1]) ^ True`, which is `True` for two
equal-keyed elements, so they are swapped — here the first pass swaps the
two equal-keyed elements and the output reverses their input order. This
contradicts the module docstring ("stable bubble sort implementation"). -/
theorem equal_keys_swapped_under_reverse :
    bubblePass keyGt true 0 1 [(1, 0), (1, 1)] =
        .ok ([(1, 1), (1, 0)], true, 1) ∧
      bubbleSortList keyGt true [(1, 0), (1, 1)] = .ok [(1, 1), (1, 0)] :=
  ⟨by rfl, by rfl⟩

/-- Claim C3: `in_place=True` on an iterable that is not a list fails
with the invalid-mode `TypeError` and the input is untouched; the result
does not depend on the comparison at all (`gt` is arbitrary), so no
comparison or mutation precedes the failure. -/
theorem inplace_nonlist_invalid_mode {α : Type} (gt : α → α → Option Bool)
    (rev : Bool) (xs : List α) :
    bubble_sort gt rev true (.iterOnly xs) =
      (.error .invalidMode, .iterOnly xs) := rfl

/-- Claim C4: a non-iterable input fails with the not-iterable
`TypeError` regardless of the mode flags and the comparison, and nothing
is changed — the check precedes the in-place check, the copy, and every
comparison. -/
theorem non_iterable_rejected_first {α : Type} (gt : α → α → Option Bool)
    (rev inPlace : Bool) :
    bubble_sort gt rev inPlace (.scalar (α := α)) =
      (.error .notIterable, .scalar) := rfl

/-- Claim C5: whenever the sort aborts on an incomparable pair, the
diagnostics name two adjacent positions whose values are exactly the two
elements whose comparison faulted; those values sit at the reported
positions of the returned working array, which is a permutation of the
input (all swaps performed before the failure remain applied, nothing
else is altered). -/
theorem incomparable_error_diagnostics {α : Type}
    (gt : α → α → Option Bool) (rev : Bool) (l : List α)
    (e : CmpError α) (w : List α)
    (h : bubbleSortList gt rev l = .error (e, w)) :
    e.pos2 = e.pos1 + 1 ∧ gt e.val1 e.val2 = none ∧ List.Perm w l ∧
      ∃ t2, w.drop e.pos1 = e.val1 :: e.val2 :: t2 :=
  bubbleSortList_error gt rev l e w h

/-- Witness for C5 at `sort([1, "a"])`: the abort reports positions 0 and
1 with the two original values. -/
theorem incomparable_error_diagnostics_witness :
    (CmpError.mk 0 1 (MixVal.i 1) (MixVal.s "a")).pos2 =
        (CmpError.mk 0 1 (MixVal.i 1) (MixVal.s "a")).pos1 + 1 ∧
      mixGt (CmpError.mk 0 1 (MixVal.i 1) (MixVal.s "a")).val1
          (CmpError.mk 0 1 (MixVal.i 1) (MixVal.s "a")).val2 = none ∧
      List.Perm [MixVal.i 1, MixVal.s "a"] [MixVal.i 1, MixVal.s "a"] ∧
      ∃ t2, List.drop (CmpError.mk 0 1 (MixVal.i 1) (MixVal.s "a")).pos1
          [MixVal.i 1, MixVal.s "a"] =
        (CmpError.mk 0 1 (MixVal.i 1) (MixVal.s "a")).val1 ::
          (CmpError.mk 0 1 (MixVal.i 1) (MixVal.s "a")).val2 :: t2 :=
  incomparable_error_diagnostics mixGt false [MixVal.i 1, MixVal.s "a"]
    ⟨0, 1, MixVal.i 1, MixVal.s "a"⟩ [MixVal.i 1, MixVal.s "a"] (by rfl)

/-- Claim C6: in copy mode (`in_place=False`), a normal return leaves the
caller's container exactly as it was — the sort worked on the copy made
at line 76. -/
theorem copy_mode_input_unchanged {α : Type} (gt : α → α → Option Bool)
    (rev : Bool) (obj : PyObj α) (r : List α)
    (h : (bubble_sort gt rev false obj).1 = .ok r) :
    (bubble_sort gt rev false obj).2 = obj := by
  cases obj with
  | scalar => rfl
  | list xs =>
    cases hbs : bubbleSortList gt rev xs with
    | ok r2 => simp [bubble_sort, hbs]
    | error pr =>
      obtain ⟨e1, w⟩ := pr
      simp [bubble_sort, hbs]
  | iterOnly xs =>
    cases hbs : bubbleSortList gt rev xs with
    | ok r2 => simp [bubble_sort, hbs]
    | error pr =>
      obtain ⟨e1, w⟩ := pr
      simp [bubble_sort, hbs]

theorem copy_mode_input_unchanged_witness :
    (bubble_sort (pyGt (α := Nat)) false false (.list [3, 1, 2])).2 =
      .list [3, 1, 2] :=
  copy_mode_input_unchanged pyGt false (.list [3, 1, 2]) [1, 2, 3] (by rfl)

/-- Claim C7: sorting is idempotent — feeding a successful sort's output
back in returns it unchanged. -/
theorem bubble_sort_idempotent {α : Type} [LinearOrder α] (rev : Bool)
    (l r : List α) (h : bubbleSortList pyGt rev l = .ok r) :
    bubbleSortList pyGt rev r = .ok r := by
  obtain ⟨r2, h2, _, hch⟩ := bubbleSortList_pyGt_ok rev l
  rw [h] at h2
  obtain rfl : r = r2 := by simpa using h2
  exact bubbleSortList_sorted_fixed rev r hch

theorem bubble_sort_idempotent_witness :
    bubbleSortList (pyGt (α := Nat)) false [1, 2, 3] = .ok [1, 2, 3] :=
  bubble_sort_idempotent false [3, 1, 2] [1, 2, 3] (by rfl)

/-- Claim C8 as stated is false on the code: `[2, 1, 1]` is already
sorted for `reverse=True` (descending, `2 ≥ 1 ≥ 1`), yet the first pass
swaps the two equal elements (line 92's XOR makes `should_swap` true on
equality under reverse), so the loop runs 2 passes and 3 comparisons
instead of one pass with zero swaps and 2 comparisons. -/
theorem sorted_reverse_input_two_passes :
    List.Chain' (fun a b : Nat => b ≤ a) [2, 1, 1] ∧
      bubbleLoop (pyGt (α := Nat)) true 3 [2, 1, 1] =
        .ok ([2, 1, 1], 2, 3) := by
  constructor
  · norm_num [List.chain'_cons]
  · rfl

/-- Claim C8 (amended): on an input of length n already sorted for the
selected direction — strictly so between neighbours when `reverse=True` —
the first pass performs n-1 comparisons and no swap, the loop stops after
exactly that one pass (n-1 comparisons in total); and on every input the
outer loop executes at most as many passes as its `range(n)` bound. -/
theorem sorted_input_single_pass {α : Type} [LinearOrder α] (rev : Bool)
    (l : List α)
    (h : List.Chain' (fun a b => if rev then b < a else a ≤ b) l) :
    bubblePass pyGt rev 0 (l.length - 1) l =
        .ok (l, false, l.length - 1) ∧
      (2 ≤ l.length →
        bubbleLoop pyGt rev l.length l = .ok (l, 1, l.length - 1)) ∧
      (∀ (l2 : List α) k r p c2,
        bubbleLoop pyGt rev k l2 = .ok (r, p, c2) → p ≤ k) := by
  have hns : List.Chain' (fun x y => swapDec rev x y = false) l := by
    refine List.Chain'.imp ?_ h
    intro a b hab
    cases rev with
    | false =>
      simp only [if_false, Bool.false_eq_true] at hab
      simp only [swapDec, Bool.xor_false]
      exact decide_eq_false (not_lt.mpr hab)
    | true =>
      simp only [if_true] at hab
      simp only [swapDec, Bool.xor_true, Bool.not_eq_false']
      exact decide_eq_true hab
  refine ⟨?_, ?_, ?_⟩
  · rw [bubblePass_pyGt,
      passP_noswap_count (swapDec rev) (l.length - 1) l hns]
    rw [Nat.min_self]
  · intro h2
    have hn : l.length = (l.length - 1) + 1 := by omega
    rw [bubbleLoop_pyGt]
    conv_lhs => rw [hn]
    rw [loopP_one_pass (swapDec rev) (l.length - 1) l hns, Nat.min_self]
  · intro l2 k r p c2 hbl
    rw [bubbleLoop_pyGt] at hbl
    have hle := loopP_passes_le (swapDec rev) k l2
    simp only [Except.ok.injEq] at hbl
    rw [hbl] at hle
    exact hle

theorem sorted_input_single_pass_witness :
    bubblePass (pyGt (α := Nat)) false 0 2 [1, 2, 3] =
        .ok ([1, 2, 3], false, 2) ∧
      bubbleLoop (pyGt (α := Nat)) false 3 [1, 2, 3] =
        .ok ([1, 2, 3], 1, 2) ∧
      (3 : Nat) ≤ 3 :=
  ⟨(sorted_input_single_pass false [1, 2, 3]
      (by norm_num [List.chain'_cons])).1,
    (sorted_input_single_pass false [1, 2, 3]
      (by norm_num [List.chain'_cons])).2.1 (by norm_num),
    (sorted_input_single_pass false [1, 2, 3]
      (by norm_num [List.chain'_cons])).2.2
      [3, 2, 1] 3 [1, 2, 3] 3 3 (by rfl)⟩

/-- Claim C9: `_parse_item` returns the integer parse of the stripped
token when `int` accepts it, otherwise its float parse when `float`
accepts it, otherwise the stripped string itself; it is total by
construction (a Lean function, every branch returns a value). -/
theorem parse_item_fallback_chain (token : String) :
    (∀ n : Int, pyIntParse (pyStrip token) = some n →
      parse_item token = .int n) ∧
    (pyIntParse (pyStrip token) = none →
      pyFloatAccepts (pyStrip token) = true →
      parse_item token = .float (pyStrip token)) ∧
    (pyIntParse (pyStrip token) = none →
      pyFloatAccepts (pyStrip token) = false →
      parse_item token = .str (pyStrip token)) := by
  refine ⟨?_, ?_, ?_⟩
  · intro n h
    simp [parse_item, h]
  · intro h1 h2
    simp [parse_item, h1, h2]
  · intro h1 h2
    simp [parse_item, h1, h2]

theorem parse_item_fallback_chain_witness :
    parse_item " 42 " = .int 42 ∧ parse_item "3.5" = .float "3.5" ∧
      parse_item " abc" = .str "abc" :=
  ⟨(parse_item_fallback_chain " 42 ").1 42 (by rfl),
    (parse_item_fallback_chain "3.5").2.1 (by rfl) (by rfl),
    (parse_item_fallback_chain " abc").2.2 (by rfl) (by rfl)⟩

/-- Claim C10: in copy mode, even when the sort aborts mid-algorithm with
an incomparable-elements error, the caller's container is left exactly as
it was — the swaps already performed only ever touched the internal copy. -/
theorem copy_mode_error_atomic {α : Type} (gt : α → α → Option Bool)
    (rev : Bool) (obj : PyObj α) (e : CmpError α)
    (h : (bubble_sort gt rev false obj).1 = .error (.incomparable e)) :
    (bubble_sort gt rev false obj).2 = obj := by
  cases obj with
  | scalar => rfl
  | list xs =>
    cases hbs : bubbleSortList gt rev xs with
    | ok r2 => simp [bubble_sort, hbs]
    | error pr =>
      obtain ⟨e1, w⟩ := pr
      simp [bubble_sort, hbs]
  | iterOnly xs =>
    cases hbs : bubbleSortList gt rev xs with
    | ok r2 => simp [bubble_sort, hbs]
    | error pr =>
      obtain ⟨e1, w⟩ := pr
      simp [bubble_sort, hbs]

theorem copy_mode_error_atomic_witness :
    (bubble_sort mixGt false false
        (.list [MixVal.i 1, MixVal.s "a"])).2 =
      .list [MixVal.i 1, MixVal.s "a"] :=
  copy_mode_error_atomic mixGt false (.list [MixVal.i 1, MixVal.s "a"])
    ⟨0, 1, MixVal.i 1, MixVal.s "a"⟩ (by rfl)
